import Mathlib

/-!
Verification of the underwater-image detection pipeline
(`Underwater_Image_Processing_and_Object_Detection.py`).

This file gives a shallow embedding of the pure computational core of the
program: the TFLite output decoding and filtering (`ObjectDetector._postprocess`),
the output-index assignment and normalization-metadata extraction performed in
`ObjectDetector.__init__`, the white-patch color balancing
(`whitepatch_balancing`), and the annotation step (`visualize`).

Modelling conventions:
* Python floats are modelled as exact rationals (`ℚ`); `uint8` pixel values as `ℕ`.
* Fallible Python operations (list indexing that can raise `IndexError`,
  numpy operations that produce `Inf`/`NaN` or raise) are modelled with
  `Option`: `none` means the call fails or yields a non-finite float value.
* `int(x)` is truncation toward zero; numpy `astype(uint8)` on values in
  `[0, 255]` is truncation (floor).
-/

namespace UW

/-- Python `int(x)` on a float: truncation toward zero
(floor for nonnegative arguments, ceiling for negative ones). -/
def pyInt (q : ℚ) : ℤ :=
  if 0 ≤ q then ⌊q⌋ else ⌈q⌉

/-- Python list indexing `l[i]` with an `int` index: a nonnegative index reads
from the front, a negative index `i` reads `l[len(l) + i]`, and anything out of
range raises `IndexError` (modelled `none`).  Used for `self._label_list[class_id]`. -/
def pyIndex (l : List String) (i : ℤ) : Option String :=
  if 0 ≤ i then l[i.toNat]?
  else if -(l.length : ℤ) ≤ i then l[((l.length : ℤ) + i).toNat]?
  else none

/-- `Rect` from the source: a rectangle in 2D space (integer pixel coordinates
after denormalization). -/
structure Rect where
  left : ℤ
  top : ℤ
  right : ℤ
  bottom : ℤ
deriving DecidableEq

/-- `Category` from the source: a result of a classification task. -/
structure Category where
  label : String
  score : ℚ
  index : ℤ
deriving DecidableEq

instance : Inhabited Category := ⟨⟨"", 0, 0⟩⟩

/-- `Detection` from the source: a detected object as the result of an
`ObjectDetector`. -/
structure Detection where
  bounding_box : Rect
  categories : List Category
deriving DecidableEq

/-- `ObjectDetectorOptions` from the source (the fields the pure pipeline
reads; `enable_edgetpu` and `num_threads` are engine passthroughs). -/
structure ObjectDetectorOptions where
  label_allow_list : Option (List String) := none
  label_deny_list : Option (List String) := none
  max_results : ℤ := -1
  score_threshold : ℚ := 0
deriving DecidableEq

/-- Score of `detection.categories[0]`, as used by the sort key and filters
in `_postprocess`. -/
def score0 (d : Detection) : ℚ := d.categories.headI.score

/-- Label of `detection.categories[0]`, as used by the deny/allow filters
in `_postprocess`. -/
def label0 (d : Detection) : String := d.categories.headI.label

/-- Box denormalization from `_postprocess`:
`Rect(top=int(y_min * image_height), left=int(x_min * image_width),
bottom=int(y_max * image_height), right=int(x_max * image_width))`.
The box is `(y_min, x_min, y_max, x_max)`. -/
def denormRect (b : ℚ × ℚ × ℚ × ℚ) (image_width image_height : ℕ) : Rect :=
  { top := pyInt (b.1 * image_height)
    left := pyInt (b.2.1 * image_width)
    bottom := pyInt (b.2.2.1 * image_height)
    right := pyInt (b.2.2.2 * image_width) }

/-- The four sorted output tensor indices of the interpreter, assigned in
`ObjectDetector.__init__` to the names location / category / score /
number-of-detections. -/
structure OutputIndices where
  location : ℕ
  category : ℕ
  score : ℕ
  number : ℕ
deriving DecidableEq

/-- Insertion step of an ascending insertion sort on `ℕ` (modelling Python
`sorted` on the raw output indices). -/
def insertAsc (n : ℕ) : List ℕ → List ℕ
  | [] => [n]
  | m :: ms => if n ≤ m then n :: m :: ms else m :: insertAsc n ms

/-- Ascending stable sort on `ℕ`, modelling Python `sorted`. -/
def sortAsc : List ℕ → List ℕ
  | [] => []
  | n :: ns => insertAsc n (sortAsc ns)

/-- Output-index assignment from `ObjectDetector.__init__`: sort the raw
output tensor indices ascending and read positions 0..3; a missing position
raises `IndexError` (modelled `none`). -/
def assignOutputIndices (outs : List ℕ) : Option OutputIndices :=
  let s := sortAsc outs
  match s[0]?, s[1]?, s[2]?, s[3]? with
  | some a, some b, some c, some d =>
      some { location := a, category := b, score := c, number := d }
  | _, _, _, _ => none

theorem insertAsc_perm (n : ℕ) (l : List ℕ) : List.Perm (insertAsc n l) (n :: l) := by
  induction l with
  | nil => simp [insertAsc]
  | cons m ms ih =>
    by_cases h : n ≤ m
    · simp [insertAsc, h]
    · simp only [insertAsc, if_neg h]
      exact (ih.cons m).trans (List.Perm.swap n m ms)

theorem sortAsc_perm (l : List ℕ) : List.Perm (sortAsc l) l := by
  induction l with
  | nil => simp [sortAsc]
  | cons n ns ih => exact (insertAsc_perm n (sortAsc ns)).trans (ih.cons n)

theorem insertAsc_pairwise (n : ℕ) (l : List ℕ) (h : l.Pairwise (· ≤ ·)) :
    (insertAsc n l).Pairwise (· ≤ ·) := by
  induction l with
  | nil => simp [insertAsc]
  | cons m ms ih =>
    rcases List.pairwise_cons.mp h with ⟨hm, hms⟩
    by_cases hnm : n ≤ m
    · simp only [insertAsc, if_pos hnm]
      refine List.pairwise_cons.mpr ⟨?_, h⟩
      intro b hb
      rcases List.mem_cons.mp hb with hb | hb
      · subst hb
        exact hnm
      · exact le_trans hnm (hm b hb)
    · simp only [insertAsc, if_neg hnm]
      refine List.pairwise_cons.mpr ⟨?_, ih hms⟩
      intro b hb
      have hb' := (insertAsc_perm n ms).mem_iff.mp hb
      rcases List.mem_cons.mp hb' with hb2 | hb2
      · subst hb2
        exact le_of_lt (lt_of_not_le hnm)
      · exact hm b hb2

theorem sortAsc_pairwise (l : List ℕ) : (sortAsc l).Pairwise (· ≤ ·) := by
  induction l with
  | nil => simp [sortAsc]
  | cons n ns ih => exact insertAsc_pairwise n (sortAsc ns) ih

/-- C4 counterexample: a model exposing five outputs does NOT make
construction fail — the four smallest indices are silently used.  This
refutes the "fails if and only if not exactly four outputs" claim. -/
theorem assignOutputIndices_five_outputs_counterexample :
    assignOutputIndices [4, 2, 0, 3, 1] =
      some { location := 0, category := 1, score := 2, number := 3 } ∧
    [4, 2, 0, 3, 1].length ≠ 4 := by
  constructor
  · rfl
  · decide

/-- C4 (amended): construction fails (`IndexError`) iff the model exposes
fewer than four outputs; the sorted index list is ascending and a permutation
of the raw indices; and on success positions 0..3 of the ascending sort are
assigned, in order, to location, category, score and detection count. -/
theorem assignOutputIndices_spec (outs : List ℕ) :
    (assignOutputIndices outs = none ↔ outs.length < 4)
    ∧ (sortAsc outs).Pairwise (· ≤ ·)
    ∧ List.Perm (sortAsc outs) outs
    ∧ ∀ oi, assignOutputIndices outs = some oi →
        (sortAsc outs)[0]? = some oi.location ∧
        (sortAsc outs)[1]? = some oi.category ∧
        (sortAsc outs)[2]? = some oi.score ∧
        (sortAsc outs)[3]? = some oi.number := by
  have hlen : (sortAsc outs).length = outs.length := (sortAsc_perm outs).length_eq
  refine ⟨?_, sortAsc_pairwise outs, sortAsc_perm outs, ?_⟩
  · rw [← hlen]
    unfold assignOutputIndices
    rcases sortAsc outs with _ | ⟨a, _ | ⟨b, _ | ⟨c, _ | ⟨d, t⟩⟩⟩⟩ <;> simp <;> omega
  · intro oi
    unfold assignOutputIndices
    rcases sortAsc outs with _ | ⟨a, _ | ⟨b, _ | ⟨c, _ | ⟨d, t⟩⟩⟩⟩ <;>
      intro hoi <;> simp_all <;> cases hoi <;> simp

/-- Witness for `assignOutputIndices_spec` at concrete inputs. -/
theorem assignOutputIndices_spec_witness :
    assignOutputIndices [4, 2] = none ∧
    (sortAsc [4, 2, 0, 3])[0]? = some 0 := by
  constructor
  · exact (assignOutputIndices_spec [4, 2]).1.mpr (by decide)
  · exact ((assignOutputIndices_spec [4, 2, 0, 3]).2.2.2
      { location := 0, category := 2, score := 3, number := 4 } (by decide)).1

theorem pyInt_eq_floor (q : ℚ) (h : 0 ≤ q) : pyInt q = ⌊q⌋ := if_pos h

/-- C8: for normalized coordinates in `[0,1]` and image dimensions `w × h`,
the decoder denormalizes by multiplying the `y` coordinates by the height and
the `x` coordinates by the width and truncating (flooring) to integer pixels. -/
theorem denormRect_spec (y_min x_min y_max x_max : ℚ) (w h : ℕ)
    (hy1 : 0 ≤ y_min) (hy1u : y_min ≤ 1) (hx1 : 0 ≤ x_min) (hx1u : x_min ≤ 1)
    (hy2 : 0 ≤ y_max) (hy2u : y_max ≤ 1) (hx2 : 0 ≤ x_max) (hx2u : x_max ≤ 1) :
    denormRect (y_min, x_min, y_max, x_max) w h =
      { top := ⌊y_min * h⌋, left := ⌊x_min * w⌋,
        bottom := ⌊y_max * h⌋, right := ⌊x_max * w⌋ } := by
  unfold denormRect
  simp only
  rw [pyInt_eq_floor _ (mul_nonneg hy1 (by positivity)),
    pyInt_eq_floor _ (mul_nonneg hx1 (by positivity)),
    pyInt_eq_floor _ (mul_nonneg hy2 (by positivity)),
    pyInt_eq_floor _ (mul_nonneg hx2 (by positivity))]

/-- Witness for `denormRect_spec`: box `[0.1, 0.2, 0.5, 0.6]` on a
100-high by 200-wide image yields `top=10, left=40, bottom=50, right=120`. -/
theorem denormRect_spec_witness :
    denormRect (1/10, 2/10, 5/10, 6/10) 200 100 =
      { top := 10, left := 40, bottom := 50, right := 120 } := by
  have h := denormRect_spec (1/10) (2/10) (5/10) (6/10) 200 100
    (by norm_num) (by norm_num) (by norm_num) (by norm_num)
    (by norm_num) (by norm_num) (by norm_num) (by norm_num)
  rw [h]
  norm_num [Int.floor_eq_iff]

/-- Insertion step of the stable descending sort by `categories[0].score`
(modelling `sorted(results, key=..., reverse=True)`): a new element is placed
before the first element whose score is `≤` its own, so earlier elements win
ties. -/
def insertDesc (d : Detection) : List Detection → List Detection
  | [] => [d]
  | e :: es => if score0 e ≤ score0 d then d :: e :: es else e :: insertDesc d es

/-- Stable sort of detections, descending by `categories[0].score`
(Python `sorted(..., reverse=True)` from `_postprocess`). -/
def sortDesc : List Detection → List Detection
  | [] => []
  | d :: ds => insertDesc d (sortDesc ds)

/-- Deny step from `_postprocess`: when a deny list is configured, drop every
detection whose `categories[0].label` is in it. -/
def denyStage (options : ObjectDetectorOptions) (l : List Detection) : List Detection :=
  match options.label_deny_list with
  | none => l
  | some deny => l.filter (fun d => !(deny.contains (label0 d)))

/-- Allow step from `_postprocess`: when an allow list is configured, keep only
detections whose `categories[0].label` is in it. -/
def allowStage (options : ObjectDetectorOptions) (l : List Detection) : List Detection :=
  match options.label_allow_list with
  | none => l
  | some allow => l.filter (fun d => allow.contains (label0 d))

/-- The filter/ranker tail of `_postprocess`, transcribed from the source:
stable sort descending by score, then deny filter, then allow filter, then
`filtered_results[:min(len(filtered_results), max_results)]` when
`max_results > 0`. -/
def rank (options : ObjectDetectorOptions) (results : List Detection) : List Detection :=
  let sorted_results := sortDesc results
  let filtered_results :=
    match options.label_deny_list with
    | none => sorted_results
    | some deny => sorted_results.filter (fun d => !(deny.contains (label0 d)))
  let filtered_results2 :=
    match options.label_allow_list with
    | none => filtered_results
    | some allow => filtered_results.filter (fun d => allow.contains (label0 d))
  if 0 < options.max_results then
    filtered_results2.take (min filtered_results2.length options.max_results.toNat)
  else filtered_results2

/-- The filter/ranker as the spec words it: (1) stable sort descending by
score, (2) deny, (3) allow, (4) truncate to `maxResults` when positive. -/
def filterRankerSpec (options : ObjectDetectorOptions) (l : List Detection) :
    List Detection :=
  let s3 := allowStage options (denyStage options (sortDesc l))
  if 0 < options.max_results then s3.take options.max_results.toNat else s3

theorem insertDesc_perm (d : Detection) (l : List Detection) :
    List.Perm (insertDesc d l) (d :: l) := by
  induction l with
  | nil => simp [insertDesc]
  | cons e es ih =>
    by_cases h : score0 e ≤ score0 d
    · simp [insertDesc, h]
    · simp only [insertDesc, if_neg h]
      exact (ih.cons e).trans (List.Perm.swap d e es)

theorem sortDesc_perm (l : List Detection) : List.Perm (sortDesc l) l := by
  induction l with
  | nil => simp [sortDesc]
  | cons d ds ih => exact (insertDesc_perm d (sortDesc ds)).trans (ih.cons d)

theorem insertDesc_pairwise (d : Detection) (l : List Detection)
    (h : l.Pairwise (fun a b => score0 b ≤ score0 a)) :
    (insertDesc d l).Pairwise (fun a b => score0 b ≤ score0 a) := by
  induction l with
  | nil => simp [insertDesc]
  | cons e es ih =>
    rcases List.pairwise_cons.mp h with ⟨he, hes⟩
    by_cases hde : score0 e ≤ score0 d
    · simp only [insertDesc, if_pos hde]
      refine List.pairwise_cons.mpr ⟨?_, h⟩
      intro b hb
      rcases List.mem_cons.mp hb with hb | hb
      · subst hb
        exact hde
      · exact le_trans (he b hb) hde
    · simp only [insertDesc, if_neg hde]
      refine List.pairwise_cons.mpr ⟨?_, ih hes⟩
      intro b hb
      have hb' := (insertDesc_perm d es).mem_iff.mp hb
      rcases List.mem_cons.mp hb' with hb2 | hb2
      · subst hb2
        exact le_of_lt (lt_of_not_le hde)
      · exact he b hb2

theorem sortDesc_pairwise (l : List Detection) :
    (sortDesc l).Pairwise (fun a b => score0 b ≤ score0 a) := by
  induction l with
  | nil => simp [sortDesc]
  | cons d ds ih => exact insertDesc_pairwise d (sortDesc ds) ih

theorem insertDesc_filter_score (d : Detection) (l : List Detection) (s : ℚ) :
    (insertDesc d l).filter (fun e => decide (score0 e = s)) =
      if score0 d = s then d :: l.filter (fun e => decide (score0 e = s))
      else l.filter (fun e => decide (score0 e = s)) := by
  induction l with
  | nil =>
    by_cases hd : score0 d = s <;> simp [insertDesc, hd]
  | cons e es ih =>
    by_cases hde : score0 e ≤ score0 d
    · rw [insertDesc, if_pos hde]
      by_cases hd : score0 d = s <;> simp [List.filter_cons, hd]
    · rw [insertDesc, if_neg hde]
      have hes : score0 d < score0 e := lt_of_not_le hde
      simp only [List.filter_cons, ih]
      by_cases hd : score0 d = s
      · have hE : ¬(score0 e = s) := by
          intro h2
          exact absurd (h2.trans hd.symm) (ne_of_gt hes)
        simp [hd, hE]
      · by_cases hE : score0 e = s <;> simp [hd, hE]

/-- Stability of the descending sort: for every score value, the elements
holding that score appear in the sorted output exactly in their original
relative order. -/
theorem sortDesc_filter_score (l : List Detection) (s : ℚ) :
    (sortDesc l).filter (fun e => decide (score0 e = s)) =
      l.filter (fun e => decide (score0 e = s)) := by
  induction l with
  | nil => simp [sortDesc]
  | cons d ds ih =>
    by_cases hd : score0 d = s <;>
      simp [sortDesc, insertDesc_filter_score, hd, List.filter_cons, ih]

theorem take_min_length (l : List Detection) (n : ℕ) :
    l.take (min l.length n) = l.take n := by
  rcases le_total l.length n with h | h
  · rw [min_eq_left h, List.take_length, List.take_of_length_le h]
  · rw [min_eq_right h]

theorem rank_eq_filterRankerSpec (options : ObjectDetectorOptions)
    (l : List Detection) : rank options l = filterRankerSpec options l := by
  unfold rank filterRankerSpec denyStage allowStage
  by_cases hm : 0 < options.max_results <;> simp only [hm, if_pos, if_neg, ite_true,
    ite_false, eq_self_iff_true, take_min_length]

/-- Every detection returned by the filter/ranker already occurs in its
input list: sorting is a permutation, the deny/allow steps are filters, and
truncation takes a prefix. -/
theorem rank_subset (options : ObjectDetectorOptions) (l : List Detection)
    (d : Detection) (hd : d ∈ rank options l) : d ∈ l := by
  rw [rank_eq_filterRankerSpec] at hd
  unfold filterRankerSpec at hd
  have h3 : d ∈ allowStage options (denyStage options (sortDesc l)) := by
    by_cases hm : 0 < options.max_results
    · rw [if_pos hm] at hd
      exact List.take_subset _ _ hd
    · rwa [if_neg hm] at hd
  have h2 : d ∈ denyStage options (sortDesc l) := by
    unfold allowStage at h3
    rcases hA : options.label_allow_list with _ | allow <;> rw [hA] at h3
    · exact h3
    · exact (List.mem_filter.mp h3).1
  have h1 : d ∈ sortDesc l := by
    unfold denyStage at h2
    rcases hD : options.label_deny_list with _ | deny <;> rw [hD] at h2
    · exact h2
    · exact (List.mem_filter.mp h2).1
  exact (sortDesc_perm l).mem_iff.mp h1

/-- C1: the filter/ranker applies, in order, (1) the stable descending sort
by score (sorted output, ties keeping original decode order), (2) the deny
filter, (3) the allow filter, (4) truncation to the first `max_results`
entries when `max_results > 0`; the result length is bounded by `max_results`
when it is positive, and `max_results ≤ 0` never truncates. -/
theorem rank_pipeline_spec (options : ObjectDetectorOptions) (decoded : List Detection) :
    rank options decoded = filterRankerSpec options decoded
    ∧ (sortDesc decoded).Pairwise (fun a b => score0 b ≤ score0 a)
    ∧ (∀ s : ℚ, (sortDesc decoded).filter (fun e => decide (score0 e = s)) =
        decoded.filter (fun e => decide (score0 e = s)))
    ∧ List.Perm (sortDesc decoded) decoded
    ∧ (0 < options.max_results →
        ((rank options decoded).length : ℤ) ≤ options.max_results)
    ∧ (options.max_results ≤ 0 →
        rank options decoded = allowStage options (denyStage options (sortDesc decoded))) := by
  have hspec : rank options decoded = filterRankerSpec options decoded :=
    rank_eq_filterRankerSpec options decoded
  refine ⟨hspec, sortDesc_pairwise decoded, sortDesc_filter_score decoded, sortDesc_perm decoded,
    ?_, ?_⟩
  · intro hm
    rw [hspec]
    unfold filterRankerSpec
    simp only [if_pos hm]
    calc ((List.take options.max_results.toNat
            (allowStage options (denyStage options (sortDesc decoded)))).length : ℤ)
        ≤ (options.max_results.toNat : ℤ) := by
          exact_mod_cast List.length_take_le _ _
      _ = options.max_results := Int.toNat_of_nonneg (le_of_lt hm)
  · intro hm
    rw [hspec]
    unfold filterRankerSpec
    simp only [if_neg (not_lt.mpr hm)]

/-- Witness for `rank_pipeline_spec` at concrete inputs: one option set with
`max_results = 1` (bound holds) and one with the default `-1`
(no truncation). -/
theorem rank_pipeline_spec_witness :
    ((rank { max_results := 1 } []).length : ℤ) ≤ 1 ∧
    rank { max_results := -1 } [] =
      allowStage { max_results := -1 }
        (denyStage { max_results := -1 } (sortDesc [])) := by
  constructor
  · exact (rank_pipeline_spec { max_results := 1 } []).2.2.2.2.1 (by decide)
  · exact (rank_pipeline_spec { max_results := -1 } []).2.2.2.2.2 (by decide)

section Decode

variable (label_list : List String) (boxes : List (ℚ × ℚ × ℚ × ℚ))
variable (classes : List ℤ) (scores : List ℚ) (score_threshold : ℚ)
variable (image_width image_height : ℕ)

/-- One iteration of the decode loop of `_postprocess` (loop body for index
`i`): read `scores[i]`; when it clears the threshold, read `boxes[i]`,
`classes[i]` and `self._label_list[class_id]` and emit one `Detection` with a
single category; below the threshold nothing is emitted.  Any failing list
access raises `IndexError` (modelled `none`). -/
def decodeStep (i : ℕ) : Option (List Detection) :=
  match scores[i]? with
  | none => none
  | some s =>
    if score_threshold ≤ s then
      match boxes[i]? with
      | none => none
      | some b =>
        match classes[i]? with
        | none => none
        | some c =>
          match pyIndex label_list c with
          | none => none
          | some lab =>
            some [{ bounding_box := denormRect b image_width image_height,
                    categories := [{ label := lab, score := s, index := c }] }]
    else some []

/-- The decode loop of `_postprocess`: `for i in range(count)` appending the
detections emitted at each index; an `IndexError` at any index aborts the
whole call (modelled `none`). -/
def decodeAux : ℕ → Option (List Detection)
  | 0 => some []
  | n + 1 =>
    match decodeAux n,
      decodeStep label_list boxes classes scores score_threshold
        image_width image_height n with
    | some front, some dn => some (front ++ dn)
    | _, _ => none

/-- `_postprocess` in full: decode the raw tensors (with the configured score
threshold), then sort/deny/allow/truncate. -/
def postprocess (options : ObjectDetectorOptions) (count : ℕ) :
    Option (List Detection) :=
  (decodeAux label_list boxes classes scores options.score_threshold
    image_width image_height count).map (rank options)

theorem decodeStep_cases (i : ℕ) (l : List Detection)
    (h : decodeStep label_list boxes classes scores score_threshold
      image_width image_height i = some l) :
    (∃ s, scores[i]? = some s ∧ s < score_threshold ∧ l = [])
    ∨ (∃ s b c lab, scores[i]? = some s ∧ score_threshold ≤ s ∧
        boxes[i]? = some b ∧ classes[i]? = some c ∧
        pyIndex label_list c = some lab ∧
        l = [{ bounding_box := denormRect b image_width image_height,
               categories := [{ label := lab, score := s, index := c }] }]) := by
  revert h
  unfold decodeStep
  rcases scores[i]? with _ | s
  · intro h
    exact absurd h (by simp)
  · dsimp only
    by_cases hts : score_threshold ≤ s
    · rw [if_pos hts]
      rcases boxes[i]? with _ | b
      · intro h
        exact absurd h (by simp)
      · dsimp only
        rcases classes[i]? with _ | c
        · intro h
          exact absurd h (by simp)
        · dsimp only
          rcases hpy : pyIndex label_list c with _ | lab
          · intro h
            exact absurd h (by simp)
          · dsimp only
            intro h
            refine Or.inr ⟨s, b, c, lab, rfl, hts, rfl, rfl, hpy, ?_⟩
            exact (Option.some_inj.mp h).symm
    · rw [if_neg hts]
      intro h
      refine Or.inl ⟨s, rfl, lt_of_not_le hts, (Option.some_inj.mp h).symm⟩

theorem decodeStep_eq_of_hyps (i : ℕ) (s : ℚ) (b : ℚ × ℚ × ℚ × ℚ) (c : ℤ)
    (lab : String) (hs : scores[i]? = some s) (hts : score_threshold ≤ s)
    (hb : boxes[i]? = some b) (hc : classes[i]? = some c)
    (hlab : pyIndex label_list c = some lab) :
    decodeStep label_list boxes classes scores score_threshold
      image_width image_height i =
      some [{ bounding_box := denormRect b image_width image_height,
              categories := [{ label := lab, score := s, index := c }] }] := by
  simp [decodeStep, hs, hb, hc, hlab, hts]

theorem decodeStep_eq_none_of_lookup (i : ℕ) (s : ℚ) (b : ℚ × ℚ × ℚ × ℚ)
    (c : ℤ) (hs : scores[i]? = some s) (hts : score_threshold ≤ s)
    (hb : boxes[i]? = some b) (hc : classes[i]? = some c)
    (hlab : pyIndex label_list c = none) :
    decodeStep label_list boxes classes scores score_threshold
      image_width image_height i = none := by
  simp [decodeStep, hs, hb, hc, hlab, hts]

theorem decodeStep_eq_skip (i : ℕ) (s : ℚ) (hs : scores[i]? = some s)
    (hts : s < score_threshold) :
    decodeStep label_list boxes classes scores score_threshold
      image_width image_height i = some [] := by
  unfold decodeStep
  rw [hs]
  dsimp only
  rw [if_neg (not_le.mpr hts)]

theorem decodeAux_some_mem (n : ℕ) (res : List Detection)
    (h : decodeAux label_list boxes classes scores score_threshold
      image_width image_height n = some res) :
    ∀ d ∈ res, ∃ i, i < n ∧ ∃ l,
      decodeStep label_list boxes classes scores score_threshold
        image_width image_height i = some l ∧ d ∈ l := by
  induction n generalizing res with
  | zero =>
    simp only [decodeAux, Option.some_inj] at h
    subst h
    intro d hd
    exact absurd hd (List.not_mem_nil d)
  | succ n ih =>
    rw [decodeAux] at h
    revert h
    rcases hfront : decodeAux label_list boxes classes scores score_threshold
        image_width image_height n with _ | front
    · intro h
      exact absurd h (by simp)
    · rcases hstep : decodeStep label_list boxes classes scores score_threshold
          image_width image_height n with _ | dn
      · intro h
        exact absurd h (by simp)
      · intro h
        have hres : res = front ++ dn := (Option.some_inj.mp h).symm
        subst hres
        intro d hd
        rcases List.mem_append.mp hd with hd | hd
        · rcases ih front hfront d hd with ⟨i, hi, l, hl, hdl⟩
          exact ⟨i, Nat.lt_succ_of_lt hi, l, hl, hdl⟩
        · exact ⟨n, Nat.lt_succ_self n, dn, hstep, hd⟩

theorem decodeAux_mem_of_step (n i : ℕ) (res l : List Detection) (hi : i < n)
    (h : decodeAux label_list boxes classes scores score_threshold
      image_width image_height n = some res)
    (hstep : decodeStep label_list boxes classes scores score_threshold
      image_width image_height i = some l) :
    ∀ d ∈ l, d ∈ res := by
  induction n generalizing res with
  | zero => exact absurd hi (Nat.not_lt_zero i)
  | succ n ih =>
    rw [decodeAux] at h
    revert h
    rcases hfront : decodeAux label_list boxes classes scores score_threshold
        image_width image_height n with _ | front
    · intro h
      exact absurd h (by simp)
    · rcases hstep2 : decodeStep label_list boxes classes scores score_threshold
          image_width image_height n with _ | dn
      · intro h
        exact absurd h (by simp)
      · intro h
        have hres : res = front ++ dn := (Option.some_inj.mp h).symm
        subst hres
        intro d hd
        rcases Nat.lt_succ_iff_lt_or_eq.mp hi with hi2 | hi2
        · exact List.mem_append_left dn (ih front hi2 hfront d hd)
        · subst hi2
          rw [hstep] at hstep2
          have : l = dn := Option.some_inj.mp hstep2
          subst this
          exact List.mem_append_right front hd

theorem decodeAux_none_of_step (n i : ℕ) (hi : i < n)
    (hstep : decodeStep label_list boxes classes scores score_threshold
      image_width image_height i = none) :
    decodeAux label_list boxes classes scores score_threshold
      image_width image_height n = none := by
  induction n with
  | zero => exact absurd hi (Nat.not_lt_zero i)
  | succ n ih =>
    rw [decodeAux]
    rcases Nat.lt_succ_iff_lt_or_eq.mp hi with hi2 | hi2
    · rw [ih hi2]
    · subst hi2
      rw [hstep]
      rcases decodeAux label_list boxes classes scores score_threshold
          image_width image_height i with _ | front <;> rfl

/-- C7: whenever the decode loop completes with result `res`, every detection
in `res` has score `≥` the threshold (strictly-below-threshold entries are
excluded), and every index `i < count` whose score clears the threshold
(boundary `score == threshold` included) contributes its detection to `res`. -/
theorem decode_threshold_spec (count : ℕ) (res : List Detection)
    (hres : decodeAux label_list boxes classes scores score_threshold
      image_width image_height count = some res) :
    (∀ d ∈ res, score_threshold ≤ score0 d)
    ∧ (∀ i, i < count → ∀ s b c lab, scores[i]? = some s → score_threshold ≤ s →
        boxes[i]? = some b → classes[i]? = some c →
        pyIndex label_list c = some lab →
        ({ bounding_box := denormRect b image_width image_height,
           categories := [{ label := lab, score := s, index := c }] } : Detection)
          ∈ res) := by
  constructor
  · intro d hd
    rcases decodeAux_some_mem label_list boxes classes scores score_threshold
        image_width image_height count res hres d hd with ⟨i, _hi, l, hl, hdl⟩
    rcases decodeStep_cases label_list boxes classes scores score_threshold
        image_width image_height i l hl with ⟨s, _, _, hnil⟩ | ⟨s, b, c, lab, _, hts, _, _, _, hsing⟩
    · subst hnil
      exact absurd hdl (List.not_mem_nil d)
    · subst hsing
      rcases List.mem_singleton.mp hdl with rfl
      exact hts
  · intro i hi s b c lab hs hts hb hc hlab
    have hstep := decodeStep_eq_of_hyps label_list boxes classes scores
      score_threshold image_width image_height i s b c lab hs hts hb hc hlab
    exact decodeAux_mem_of_step label_list boxes classes scores score_threshold
      image_width image_height count i res _ hi hres hstep _ (List.mem_singleton_self _)

theorem decodeAux_categories (n : ℕ) (res : List Detection)
    (h : decodeAux label_list boxes classes scores score_threshold
      image_width image_height n = some res) :
    ∀ d ∈ res, d.categories.length = 1 := by
  intro d hd
  rcases decodeAux_some_mem label_list boxes classes scores score_threshold
      image_width image_height n res h d hd with ⟨i, _, l, hl, hdl⟩
  rcases decodeStep_cases label_list boxes classes scores score_threshold
      image_width image_height i l hl with ⟨s, _, _, hnil⟩ |
      ⟨s, b, c, lab, _, _, _, _, _, hsing⟩
  · subst hnil
    exact absurd hdl (List.not_mem_nil d)
  · subst hsing
    rcases List.mem_singleton.mp hdl with rfl
    rfl

/-- C9: every `Detection` produced by a completed `_postprocess` call carries
exactly one category — a single best class per bounding box. -/
theorem postprocess_categories_length_one (options : ObjectDetectorOptions)
    (count : ℕ) (res : List Detection)
    (h : postprocess label_list boxes classes scores image_width image_height
      options count = some res) :
    ∀ d ∈ res, d.categories.length = 1 := by
  unfold postprocess at h
  revert h
  rcases hraw : decodeAux label_list boxes classes scores options.score_threshold
      image_width image_height count with _ | raw
  · intro h
    exact absurd h (by simp)
  · intro h
    have hres : res = rank options raw := by
      simpa using h.symm
    subst hres
    intro d hd
    exact decodeAux_categories label_list boxes classes scores
      options.score_threshold image_width image_height count raw hraw d
      (rank_subset options raw d hd)

/-- C10: `labels[class_id]` is read without a bounds check.  A class index
`≥ len(labels)` on an above-threshold detection makes the whole decode raise
`IndexError` (no detection list is returned), while a negative class index in
range silently reads the label counted from the end of the list and does not
fail. -/
theorem label_lookup_unchecked :
    (∀ c : ℤ, (label_list.length : ℤ) ≤ c → pyIndex label_list c = none)
    ∧ (∀ count i s b c, i < count →
        scores[i]? = some s → score_threshold ≤ s →
        boxes[i]? = some b → classes[i]? = some c →
        (label_list.length : ℤ) ≤ c →
        decodeAux label_list boxes classes scores score_threshold
          image_width image_height count = none)
    ∧ (∀ c : ℤ, -(label_list.length : ℤ) ≤ c → c < 0 →
        pyIndex label_list c =
          label_list[((label_list.length : ℤ) + c).toNat]? ∧
        pyIndex label_list c ≠ none) := by
  have h1 : ∀ c : ℤ, (label_list.length : ℤ) ≤ c → pyIndex label_list c = none := by
    intro c hc
    have hc0 : 0 ≤ c := le_trans (by positivity) hc
    unfold pyIndex
    rw [if_pos hc0]
    apply List.getElem?_eq_none
    omega
  refine ⟨h1, ?_, ?_⟩
  · intro count i s b c hi hs hts hb hc hlen
    exact decodeAux_none_of_step label_list boxes classes scores score_threshold
      image_width image_height count i hi
      (decodeStep_eq_none_of_lookup label_list boxes classes scores
        score_threshold image_width image_height i s b c hs hts hb hc (h1 c hlen))
  · intro c hcl hcn
    have hc0 : ¬(0 ≤ c) := not_le.mpr hcn
    have hlt : ((label_list.length : ℤ) + c).toNat < label_list.length := by omega
    constructor
    · unfold pyIndex
      rw [if_neg hc0, if_pos hcl]
    · unfold pyIndex
      rw [if_neg hc0, if_pos hcl, List.getElem?_eq_getElem hlt]
      exact Option.some_ne_none _

end Decode

/-- Concrete label list for witnesses. -/
def labelsEx : List String := ["fish", "shark"]

/-- Concrete raw boxes for witnesses. -/
def boxesEx : List (ℚ × ℚ × ℚ × ℚ) := [(0, 0, 1, 1), (0, 0, 1, 1), (0, 0, 1, 1)]

/-- Concrete raw class indices for witnesses. -/
def classesEx : List ℤ := [0, 1, 0]

/-- Concrete raw scores for witnesses (the decoder example of the spec). -/
def scoresEx : List ℚ := [9/10, 4/10, 9/10]

/-- The detection decoded from index 0 (and index 2) of the concrete raw
outputs on a 10×10 image. -/
def detFishEx : Detection :=
  { bounding_box := denormRect (0, 0, 1, 1) 10 10,
    categories := [{ label := "fish", score := 9/10, index := 0 }] }

/-- Concrete options for witnesses: threshold 0.5, defaults otherwise. -/
def optionsEx : ObjectDetectorOptions := { score_threshold := 1/2 }

theorem decodeAuxEx_eq :
    decodeAux labelsEx boxesEx classesEx scoresEx (1/2) 10 10 3 =
      some [detFishEx, detFishEx] := by
  have s0 : decodeStep labelsEx boxesEx classesEx scoresEx (1/2) 10 10 0 =
      some [detFishEx] := by
    rw [decodeStep_eq_of_hyps labelsEx boxesEx classesEx scoresEx (1/2) 10 10 0
      (9/10) (0, 0, 1, 1) 0 "fish" rfl (by norm_num) rfl rfl rfl]
    rfl
  have s1 : decodeStep labelsEx boxesEx classesEx scoresEx (1/2) 10 10 1 =
      some [] :=
    decodeStep_eq_skip labelsEx boxesEx classesEx scoresEx (1/2) 10 10 1
      (4/10) rfl (by norm_num)
  have s2 : decodeStep labelsEx boxesEx classesEx scoresEx (1/2) 10 10 2 =
      some [detFishEx] := by
    rw [decodeStep_eq_of_hyps labelsEx boxesEx classesEx scoresEx (1/2) 10 10 2
      (9/10) (0, 0, 1, 1) 0 "fish" rfl (by norm_num) rfl rfl rfl]
    rfl
  have e1 : decodeAux labelsEx boxesEx classesEx scoresEx (1/2) 10 10 1 =
      some [detFishEx] := by
    show decodeAux labelsEx boxesEx classesEx scoresEx (1/2) 10 10 (0 + 1) = _
    rw [decodeAux, s0]
    rfl
  have e2 : decodeAux labelsEx boxesEx classesEx scoresEx (1/2) 10 10 2 =
      some [detFishEx] := by
    show decodeAux labelsEx boxesEx classesEx scoresEx (1/2) 10 10 (1 + 1) = _
    rw [decodeAux, e1, s1]
    rfl
  show decodeAux labelsEx boxesEx classesEx scoresEx (1/2) 10 10 (2 + 1) = _
  rw [decodeAux, e2, s2]
  rfl

theorem postprocessEx_eq :
    postprocess labelsEx boxesEx classesEx scoresEx 10 10 optionsEx 3 =
      some [detFishEx, detFishEx] := by
  have hth : optionsEx.score_threshold = 1/2 := rfl
  unfold postprocess
  rw [hth, decodeAuxEx_eq]
  have hrank : rank optionsEx [detFishEx, detFishEx] = [detFishEx, detFishEx] := by
    simp [rank, sortDesc, insertDesc, optionsEx]
  show some (rank optionsEx [detFishEx, detFishEx]) = some [detFishEx, detFishEx]
  rw [hrank]

/-- Witness for `decode_threshold_spec`: on scores `[0.9, 0.4, 0.9]` with
threshold `0.5`, the index-0 detection is included in the decoded list. -/
theorem decode_threshold_spec_witness :
    ({ bounding_box := denormRect (0, 0, 1, 1) 10 10,
       categories := [{ label := "fish", score := 9/10, index := 0 }] } : Detection)
      ∈ [detFishEx, detFishEx] := by
  have h := decode_threshold_spec labelsEx boxesEx classesEx scoresEx (1/2) 10 10 3
    [detFishEx, detFishEx] decodeAuxEx_eq
  exact h.2 0 (by norm_num) (9/10) (0, 0, 1, 1) 0 "fish" rfl (by norm_num)
    rfl rfl rfl

/-- Witness for `postprocess_categories_length_one` at the concrete run. -/
theorem postprocess_categories_length_one_witness :
    detFishEx.categories.length = 1 := by
  have h := postprocess_categories_length_one labelsEx boxesEx classesEx scoresEx
    10 10 optionsEx 3 [detFishEx, detFishEx] postprocessEx_eq
  exact h detFishEx (List.mem_cons_self _ _)

/-- Witness for `label_lookup_unchecked`: out-of-range index 5 on a one-label
list fails; an above-threshold class index 5 aborts the whole decode; index -1
on a two-label list reads the last label and does not fail. -/
theorem label_lookup_unchecked_witness :
    pyIndex ["fish"] 5 = none ∧
    decodeAux ["fish"] boxesEx [0, 0, 5] scoresEx (1/2) 10 10 3 = none ∧
    pyIndex ["fish", "shark"] (-1) = ["fish", "shark"][1]? := by
  refine ⟨?_, ?_, ?_⟩
  · exact (label_lookup_unchecked ["fish"] boxesEx classesEx scoresEx
      (1/2) 10 10).1 5 (by decide)
  · exact (label_lookup_unchecked ["fish"] boxesEx [0, 0, 5] scoresEx
      (1/2) 10 10).2.1 3 2 (9/10) (0, 0, 1, 1) 5 (by decide) rfl
      (by norm_num) rfl rfl (by decide)
  · exact ((label_lookup_unchecked ["fish", "shark"] boxesEx classesEx scoresEx
      (1/2) 10 10).2.2 (-1) (by decide) (by decide)).1

/-- One processing unit of the input tensor metadata, as read from the model
metadata JSON in `ObjectDetector.__init__`: its `options_type` tag and the
`mean`/`std` arrays under its `options`. -/
structure ProcessUnit where
  options_type : String
  mean : List ℚ
  std : List ℚ
deriving DecidableEq

/-- One iteration of the metadata loop of `ObjectDetector.__init__`: a unit
tagged `NormalizationOptions` overwrites the running mean/std with its
`mean[0]` and `std[0]` (an empty array raises `IndexError`, modelled `none`);
any other unit leaves them unchanged. -/
def readNormStep (acc : Option (ℚ × ℚ)) (u : ProcessUnit) : Option (ℚ × ℚ) :=
  match acc with
  | none => none
  | some ms =>
    if u.options_type = "NormalizationOptions" then
      match u.mean[0]?, u.std[0]? with
      | some m, some s => some (m, s)
      | _, _ => none
    else some ms

/-- The metadata loop of `ObjectDetector.__init__`: start from `mean = 0.0`,
`std = 1.0` and fold `readNormStep` over the processing units of the input
tensor metadata. -/
def readNormalization (process_units : List ProcessUnit) : Option (ℚ × ℚ) :=
  process_units.foldl readNormStep (some (0, 1))

theorem foldl_readNormStep_no_norm (units : List ProcessUnit) (ms : ℚ × ℚ)
    (h : units.filter (fun u => decide (u.options_type = "NormalizationOptions")) = []) :
    units.foldl readNormStep (some ms) = some ms := by
  induction units generalizing ms with
  | nil => rfl
  | cons v vs ih =>
    rw [List.filter_cons] at h
    by_cases hv : v.options_type = "NormalizationOptions"
    · rw [if_pos (by simpa using hv)] at h
      exact absurd h (List.cons_ne_nil v _)
    · rw [if_neg (by simpa using hv)] at h
      rw [List.foldl_cons]
      have hstep : readNormStep (some ms) v = some ms := by
        unfold readNormStep
        dsimp only
        rw [if_neg hv]
      rw [hstep]
      exact ih ms h

theorem foldl_readNormStep_single (units : List ProcessUnit) (u : ProcessUnit)
    (m s : ℚ) (ms : ℚ × ℚ)
    (h : units.filter (fun u => decide (u.options_type = "NormalizationOptions")) = [u])
    (hm : u.mean[0]? = some m) (hs : u.std[0]? = some s) :
    units.foldl readNormStep (some ms) = some (m, s) := by
  induction units generalizing ms with
  | nil => exact absurd h (by simp)
  | cons v vs ih =>
    rw [List.filter_cons] at h
    by_cases hv : v.options_type = "NormalizationOptions"
    · rw [if_pos (by simpa using hv)] at h
      have hvu : v = u := (List.cons.injEq v _ u []).mp h |>.1
      have hrest : vs.filter (fun u => decide (u.options_type = "NormalizationOptions")) = [] :=
        ((List.cons.injEq v _ u []).mp h).2
      subst hvu
      rw [List.foldl_cons]
      have hstep : readNormStep (some ms) v = some (m, s) := by
        unfold readNormStep
        dsimp only
        rw [if_pos hv, hm, hs]
      rw [hstep]
      exact foldl_readNormStep_no_norm vs (m, s) hrest
    · rw [if_neg (by simpa using hv)] at h
      rw [List.foldl_cons]
      have hstep : readNormStep (some ms) v = some ms := by
        unfold readNormStep
        dsimp only
        rw [if_neg hv]
      rw [hstep]
      exact ih ms h

/-- C5: the metadata extractor reads the first mean/std pair of the single
processing unit tagged `NormalizationOptions` attached to the input tensor
metadata; when no normalization unit is present it keeps the defaults
`mean = 0.0`, `std = 1.0`. -/
theorem readNormalization_spec (units : List ProcessUnit) :
    (units.filter (fun u => decide (u.options_type = "NormalizationOptions")) = [] →
      readNormalization units = some (0, 1))
    ∧ (∀ u m s,
        units.filter (fun u => decide (u.options_type = "NormalizationOptions")) = [u] →
        u.mean[0]? = some m → u.std[0]? = some s →
        readNormalization units = some (m, s)) := by
  constructor
  · intro h
    exact foldl_readNormStep_no_norm units (0, 1) h
  · intro u m s h hm hs
    exact foldl_readNormStep_single units u m s (0, 1) h hm hs

/-- A concrete normalization unit (the usual 127.5 mean/std). -/
def normUnitEx : ProcessUnit :=
  { options_type := "NormalizationOptions", mean := [255/2], std := [255/2] }

/-- Witness for `readNormalization_spec`: no unit gives the defaults; a single
normalization unit gives its first mean/std pair. -/
theorem readNormalization_spec_witness :
    readNormalization [] = some (0, 1) ∧
    readNormalization [normUnitEx] = some (255/2, 255/2) := by
  constructor
  · exact (readNormalization_spec []).1 rfl
  · exact (readNormalization_spec [normUnitEx]).2 normUnitEx (255/2) (255/2)
      rfl rfl rfl

/-- An 8-bit RGB pixel: red, green, blue channel values (numpy `uint8`). -/
structure Px where
  r : ℕ
  g : ℕ
  b : ℕ
deriving DecidableEq

/-- An image: rows of pixels, numpy layout `image[row][column]`. -/
abbrev Img := List (List Px)

/-- The numpy slice
`image[from_row:from_row+row_width, from_column:from_column+column_width]`
taken by `whitepatch_balancing`. -/
def patchOf (image : Img) (from_row from_column row_width column_width : ℕ) : Img :=
  ((image.drop from_row).take row_width).map
    (fun row => (row.drop from_column).take column_width)

/-- Channel-wise maximum of two pixels. -/
def pxMax (a b : Px) : Px :=
  { r := max a.r b.r, g := max a.g b.g, b := max a.b b.b }

/-- `image_patch.max(axis=(0, 1))` from `whitepatch_balancing`: per-channel
maximum over all pixels of the patch (`0` when the patch is empty, a case
numpy rejects — see `whitepatch_balancing`). -/
def patchMax (patch : Img) : Px :=
  patch.flatten.foldl pxMax { r := 0, g := 0, b := 0 }

/-- numpy `clip(0, 1)` on one value. -/
def clip01 (q : ℚ) : ℚ := max 0 (min 1 q)

/-- One channel of `(image * 1.0 / patch_max).clip(0, 1)` followed by
`(... * 255).astype(np.uint8)`: divide the pixel value by the channel patch
maximum, clip to `[0, 1]`, scale by 255 and truncate to an 8-bit value
(`astype(np.uint8)` truncates toward zero). -/
def balanceChan (v m : ℕ) : ℕ := (⌊clip01 ((v : ℚ) / (m : ℚ)) * 255⌋).toNat

/-- `balanceChan` applied channel-wise. -/
def balancePx (m p : Px) : Px :=
  { r := balanceChan p.r m.r, g := balanceChan p.g m.g, b := balanceChan p.b m.b }

/-- `whitepatch_balancing` from the source: slice the reference patch, take its
per-channel maximum, divide every pixel of the whole image channel-wise by it,
clip to `[0, 1]` and rescale to 8 bits.  numpy raises on an empty patch
(`max` of an empty slice) and produces `Inf`/`NaN` when a channel patch
maximum is zero (float division by zero); both are modelled as `none`.
The subsequent sharpen/save/smooth steps use external image capabilities and
are outside this embedding. -/
def whitepatch_balancing (image : Img)
    (from_row from_column row_width column_width : ℕ) : Option Img :=
  let patch := patchOf image from_row from_column row_width column_width
  if patch.flatten = [] then none
  else
    let m := patchMax patch
    if m.r = 0 ∨ m.g = 0 ∨ m.b = 0 then none
    else some (image.map (List.map (balancePx m)))

/-- The rescale step as claim C6 words it: round to 8 bits instead of
truncating.  Used only to compare the claimed computation with the code. -/
def balanceChanRound (v m : ℕ) : ℕ :=
  (round (clip01 ((v : ℚ) / (m : ℚ)) * 255)).toNat

/-- `balanceChanRound` applied channel-wise. -/
def balancePxRound (m p : Px) : Px :=
  { r := balanceChanRound p.r m.r, g := balanceChanRound p.g m.g,
    b := balanceChanRound p.b m.b }

/-- The balancer as claim C6 describes it (rounding in the 8-bit rescale). -/
def whitepatchRound (image : Img)
    (from_row from_column row_width column_width : ℕ) : Option Img :=
  let patch := patchOf image from_row from_column row_width column_width
  if patch.flatten = [] then none
  else
    let m := patchMax patch
    if m.r = 0 ∨ m.g = 0 ∨ m.b = 0 then none
    else some (image.map (List.map (balancePxRound m)))

/-- One channel of the amended C6 formula: divide by the channel patch max,
clip to `[0, 1]` (for nonnegative inputs, `min` with 1), scale by 255,
truncate (floor). -/
def balanceChanSpec (v m : ℕ) : ℕ := (⌊min 1 ((v : ℚ) / (m : ℚ)) * 255⌋).toNat

theorem patchMax_empty (patch : Img) (h : patch.flatten = []) :
    patchMax patch = { r := 0, g := 0, b := 0 } := by
  unfold patchMax
  rw [h]
  rfl

/-- Image whose red channel is identically zero. -/
def imgZeroRedEx : Img := [[{ r := 0, g := 5, b := 5 }]]

/-- C2 counterexample: balancing a patch whose red-channel maximum is zero
divides by the raw maximum 0, not by 1 — the division by zero happens and the
output holds non-finite values (modelled: the balancer returns `none`). -/
theorem whitepatch_zero_max_counterexample :
    (patchMax (patchOf imgZeroRedEx 0 0 1 1)).r = 0 ∧
    whitepatch_balancing imgZeroRedEx 0 0 1 1 = none := by
  constructor
  · rfl
  · rfl

/-- C2 (amended): no guard replaces a zero patch maximum by 1.  The divisor
is always the raw per-channel patch maximum, and the balancer produces
non-finite values (modelled `none`) exactly when some channel patch maximum is
zero (an empty patch also fails, with all maxima zero). -/
theorem whitepatch_none_iff_zero_patch_max (image : Img)
    (from_row from_column row_width column_width : ℕ) :
    whitepatch_balancing image from_row from_column row_width column_width = none ↔
      ((patchMax (patchOf image from_row from_column row_width column_width)).r = 0 ∨
       (patchMax (patchOf image from_row from_column row_width column_width)).g = 0 ∨
       (patchMax (patchOf image from_row from_column row_width column_width)).b = 0) := by
  unfold whitepatch_balancing
  dsimp only
  by_cases hemp : (patchOf image from_row from_column row_width column_width).flatten = []
  · rw [if_pos hemp]
    have h0 := patchMax_empty _ hemp
    constructor
    · intro _
      rw [h0]
      exact Or.inl rfl
    · intro _
      rfl
  · rw [if_neg hemp]
    by_cases hz : (patchMax (patchOf image from_row from_column row_width column_width)).r = 0 ∨
        (patchMax (patchOf image from_row from_column row_width column_width)).g = 0 ∨
        (patchMax (patchOf image from_row from_column row_width column_width)).b = 0
    · rw [if_pos hz]
      exact iff_of_true rfl hz
    · rw [if_neg hz]
      exact iff_of_false (by simp) hz

/-- Two-pixel image with channel values 1 and 2. -/
def imgHalfEx : Img :=
  [[{ r := 1, g := 1, b := 1 }, { r := 2, g := 2, b := 2 }]]

/-- C6 counterexample: with patch maximum 2, pixel value 1 maps to
`0.5 * 255 = 127.5`, which `astype(np.uint8)` truncates to 127, while the
rounding that the claim describes gives 128 — the code truncates. -/
theorem whitepatch_truncates_not_rounds :
    whitepatch_balancing imgHalfEx 0 0 1 2 =
      some [[{ r := 127, g := 127, b := 127 }, { r := 255, g := 255, b := 255 }]] ∧
    whitepatchRound imgHalfEx 0 0 1 2 =
      some [[{ r := 128, g := 128, b := 128 }, { r := 255, g := 255, b := 255 }]] ∧
    whitepatch_balancing imgHalfEx 0 0 1 2 ≠ whitepatchRound imgHalfEx 0 0 1 2 := by
  have h1 : whitepatch_balancing imgHalfEx 0 0 1 2 =
      some [[{ r := 127, g := 127, b := 127 }, { r := 255, g := 255, b := 255 }]] := by
    norm_num [whitepatch_balancing, patchOf, patchMax, pxMax, balancePx,
      balanceChan, clip01, imgHalfEx]
    decide
  have h2 : whitepatchRound imgHalfEx 0 0 1 2 =
      some [[{ r := 128, g := 128, b := 128 }, { r := 255, g := 255, b := 255 }]] := by
    norm_num [whitepatchRound, patchOf, patchMax, pxMax, balancePxRound,
      balanceChanRound, clip01, imgHalfEx, round_eq]
    decide
  refine ⟨h1, h2, ?_⟩
  rw [h1, h2]
  simp

theorem clip01_eq_min (q : ℚ) (h : 0 ≤ q) : clip01 q = min 1 q := by
  unfold clip01
  exact max_eq_right (le_min (by norm_num) h)

theorem balanceChan_eq_spec (v m : ℕ) : balanceChan v m = balanceChanSpec v m := by
  unfold balanceChan balanceChanSpec
  rw [clip01_eq_min _ (by positivity)]

theorem balanceChan_le (v m : ℕ) : balanceChan v m ≤ 255 := by
  unfold balanceChan
  have hle : clip01 ((v : ℚ) / (m : ℚ)) * 255 ≤ 255 := by
    have h1 : clip01 ((v : ℚ) / (m : ℚ)) ≤ 1 :=
      max_le (by norm_num) (min_le_left _ _)
    nlinarith
  have hfl : ⌊clip01 ((v : ℚ) / (m : ℚ)) * 255⌋ ≤ 255 := by
    have := Int.floor_le_floor hle
    simpa using this
  omega

/-- C6 (amended): with positive per-channel patch maxima, the balancer maps
every pixel of the full image through: divide by the channel patch maximum,
clip to `[0, 1]`, scale by 255 and truncate (floor — not round); consequently
no output channel value exceeds 255, the 8-bit equivalent of 1.0. -/
theorem whitepatch_balancing_spec (image : Img)
    (from_row from_column row_width column_width : ℕ)
    (hr : 0 < (patchMax (patchOf image from_row from_column row_width column_width)).r)
    (hg : 0 < (patchMax (patchOf image from_row from_column row_width column_width)).g)
    (hb : 0 < (patchMax (patchOf image from_row from_column row_width column_width)).b) :
    whitepatch_balancing image from_row from_column row_width column_width =
      some (image.map (List.map (fun p =>
        { r := balanceChanSpec p.r
            (patchMax (patchOf image from_row from_column row_width column_width)).r,
          g := balanceChanSpec p.g
            (patchMax (patchOf image from_row from_column row_width column_width)).g,
          b := balanceChanSpec p.b
            (patchMax (patchOf image from_row from_column row_width column_width)).b })))
    ∧ ∀ out, whitepatch_balancing image from_row from_column row_width column_width =
        some out → ∀ row ∈ out, ∀ p ∈ row, p.r ≤ 255 ∧ p.g ≤ 255 ∧ p.b ≤ 255 := by
  have hemp : ¬((patchOf image from_row from_column row_width column_width).flatten = []) := by
    intro h
    rw [patchMax_empty _ h] at hr
    exact absurd hr (lt_irrefl 0)
  have hz : ¬((patchMax (patchOf image from_row from_column row_width column_width)).r = 0 ∨
      (patchMax (patchOf image from_row from_column row_width column_width)).g = 0 ∨
      (patchMax (patchOf image from_row from_column row_width column_width)).b = 0) := by
    omega
  have hmain : whitepatch_balancing image from_row from_column row_width column_width =
      some (image.map (List.map
        (balancePx (patchMax (patchOf image from_row from_column row_width column_width))))) := by
    unfold whitepatch_balancing
    dsimp only
    rw [if_neg hemp, if_neg hz]
  constructor
  · rw [hmain]
    unfold balancePx
    simp only [balanceChan_eq_spec]
  · intro out hout row hrow p hp
    rw [hmain] at hout
    have hout2 : out = image.map (List.map
        (balancePx (patchMax (patchOf image from_row from_column row_width column_width)))) :=
      (Option.some_inj.mp hout).symm
    subst hout2
    rcases List.mem_map.mp hrow with ⟨row0, _, hrow0⟩
    subst hrow0
    rcases List.mem_map.mp hp with ⟨p0, _, hp0⟩
    subst hp0
    exact ⟨balanceChan_le _ _, balanceChan_le _ _, balanceChan_le _ _⟩

/-- Witness for `whitepatch_balancing_spec` on the concrete two-pixel image. -/
theorem whitepatch_balancing_spec_witness :
    whitepatch_balancing imgHalfEx 0 0 1 2 =
      some (imgHalfEx.map (List.map (fun p =>
        { r := balanceChanSpec p.r (patchMax (patchOf imgHalfEx 0 0 1 2)).r,
          g := balanceChanSpec p.g (patchMax (patchOf imgHalfEx 0 0 1 2)).g,
          b := balanceChanSpec p.b (patchMax (patchOf imgHalfEx 0 0 1 2)).b }))) :=
  (whitepatch_balancing_spec imgHalfEx 0 0 1 2 (by decide) (by decide) (by decide)).1

/-- Map over a list passing each element its position, counting from `k`. -/
def mapIdxFrom (f : ℤ → α → β) (k : ℤ) : List α → List β
  | [] => []
  | a :: as => f k a :: mapIdxFrom f (k + 1) as

/-- Apply a per-pixel function that sees the pixel row and column indices. -/
def mapPixels (f : ℤ → ℤ → Px → Px) (image : Img) : Img :=
  mapIdxFrom (fun i row => mapIdxFrom (fun j p => f i j p) 0 row) 0 image

/-- Modelled from the spec: `drawRectangle` (`cv2.rectangle(image, pt1, pt2,
color, 2)`) is an external drawing capability the spec treats as opaque; per
the OpenCV contract it draws the border of the rectangle, thickness 2, into
the buffer it is given, mutating it in place.  Modelled as setting every
border pixel of the rectangle to the colour. -/
def cvRectangle (image : Img) (rect : Rect) (color : Px) : Img :=
  mapPixels (fun i j p =>
    if (rect.top ≤ i ∧ i ≤ rect.bottom ∧ rect.left ≤ j ∧ j ≤ rect.right) ∧
        (i ≤ rect.top + 1 ∨ rect.bottom - 1 ≤ i ∨
         j ≤ rect.left + 1 ∨ rect.right - 1 ≤ j)
    then color else p) image

/-- Modelled from the spec: `drawText` (`cv2.putText`) is an external drawing
capability the spec treats as opaque; it renders the label text into the
buffer at the anchor `(x, y)`, mutating it in place.  Modelled as painting the
anchor pixel with the text colour. -/
def cvPutText (image : Img) (loc : ℤ × ℤ) (color : Px) : Img :=
  mapPixels (fun i j p => if i = loc.2 ∧ j = loc.1 then color else p) image

/-- `visualize` from the source: for each detection draw its bounding box in
`box_color`, then its label text anchored at
`(_MARGIN + left, _MARGIN + _ROW_SIZE + top) = (10 + left, 20 + top)` in
`text_color`, threading one buffer through all draws.  In the source both
draws happen in place on the `image` argument and the function returns that
same array, so this value is at once the returned image and the content of
the callers input buffer after the call. -/
def visualize (image : Img) (detections : List Detection)
    (text_color box_color : Px) : Img :=
  detections.foldl
    (fun img d =>
      cvPutText (cvRectangle img d.bounding_box box_color)
        (10 + d.bounding_box.left, 10 + 10 + d.bounding_box.top) text_color)
    image

/-- Pixel of an image at row `i`, column `j`. -/
def pixAt (image : Img) (i j : ℕ) : Option Px :=
  match image[i]? with
  | none => none
  | some row => row[j]?

theorem mapIdxFrom_getElem (f : ℤ → α → β) (k : ℤ) (l : List α) (n : ℕ) :
    (mapIdxFrom f k l)[n]? = (l[n]?).map (f (k + n)) := by
  induction l generalizing k n with
  | nil => simp [mapIdxFrom]
  | cons a as ih =>
    cases n with
    | zero => simp [mapIdxFrom]
    | succ n =>
      simp only [mapIdxFrom, List.getElem?_cons_succ, ih (k + 1) n]
      have harg : k + 1 + (n : ℤ) = k + ((n : ℕ) + 1 : ℕ) := by
        push_cast
        ring
      rw [harg]

theorem pixAt_mapPixels (f : ℤ → ℤ → Px → Px) (image : Img) (i j : ℕ) :
    pixAt (mapPixels f image) i j = (pixAt image i j).map (f i j) := by
  unfold pixAt mapPixels
  rw [mapIdxFrom_getElem]
  cases image[i]? with
  | none => rfl
  | some row =>
    dsimp only [Option.map]
    rw [mapIdxFrom_getElem]
    simp only [zero_add]
    cases row[j]? <;> rfl

/-- All-black 4×4 image. -/
def imgBlackEx : Img :=
  [[{ r := 0, g := 0, b := 0 }, { r := 0, g := 0, b := 0 },
    { r := 0, g := 0, b := 0 }, { r := 0, g := 0, b := 0 }],
   [{ r := 0, g := 0, b := 0 }, { r := 0, g := 0, b := 0 },
    { r := 0, g := 0, b := 0 }, { r := 0, g := 0, b := 0 }],
   [{ r := 0, g := 0, b := 0 }, { r := 0, g := 0, b := 0 },
    { r := 0, g := 0, b := 0 }, { r := 0, g := 0, b := 0 }],
   [{ r := 0, g := 0, b := 0 }, { r := 0, g := 0, b := 0 },
    { r := 0, g := 0, b := 0 }, { r := 0, g := 0, b := 0 }]]

/-- A detection whose box covers the 4×4 image. -/
def detBoxEx : Detection :=
  { bounding_box := { left := 0, top := 0, right := 3, bottom := 3 },
    categories := [{ label := "fish", score := 1, index := 0 }] }

/-- Black and green pixels for the annotation example. -/
def pxBlack : Px := { r := 0, g := 0, b := 0 }

/-- The default box colour of the source (`(34, 143, 34)`). -/
def pxGreen : Px := { r := 34, g := 143, b := 34 }

/-- C3 counterexample: drawing one detection produces a buffer different from
the input image.  Because `cv2.rectangle`/`cv2.putText` draw in place on the
`image` argument and `visualize` returns that argument, the input image after
the call is exactly this changed buffer: the input is mutated and no new
buffer is created. -/
theorem visualize_mutates_counterexample :
    visualize imgBlackEx [detBoxEx] pxBlack pxGreen ≠ imgBlackEx := by
  decide

/-- C3 (amended): `visualize` draws boxes and labels in place on the buffer it
is given and returns that same buffer.  After drawing one detection, every
in-bounds border pixel of its box away from the text anchor holds the box
colour, so whenever that colour differs from the original pixel the input
buffer is changed rather than left intact. -/
theorem visualize_draws_in_place (image : Img) (d : Detection) (tc bc : Px)
    (i j : ℕ)
    (hin : (d.bounding_box.top ≤ (i : ℤ) ∧ (i : ℤ) ≤ d.bounding_box.bottom ∧
            d.bounding_box.left ≤ (j : ℤ) ∧ (j : ℤ) ≤ d.bounding_box.right) ∧
           ((i : ℤ) ≤ d.bounding_box.top + 1 ∨ d.bounding_box.bottom - 1 ≤ (i : ℤ) ∨
            (j : ℤ) ≤ d.bounding_box.left + 1 ∨ d.bounding_box.right - 1 ≤ (j : ℤ)))
    (htext : ¬((i : ℤ) = 10 + 10 + d.bounding_box.top ∧
               (j : ℤ) = 10 + d.bounding_box.left))
    (hpx : pixAt image i j ≠ none) (hbc : pixAt image i j ≠ some bc) :
    pixAt (visualize image [d] tc bc) i j = some bc ∧
    visualize image [d] tc bc ≠ image := by
  have hvis : visualize image [d] tc bc =
      cvPutText (cvRectangle image d.bounding_box bc)
        (10 + d.bounding_box.left, 10 + 10 + d.bounding_box.top) tc := by
    rfl
  rcases Option.ne_none_iff_exists.mp hpx with ⟨p, hp⟩
  have hrect : pixAt (cvRectangle image d.bounding_box bc) i j = some bc := by
    unfold cvRectangle
    rw [pixAt_mapPixels, ← hp]
    dsimp only [Option.map]
    rw [if_pos hin]
  have hmain : pixAt (visualize image [d] tc bc) i j = some bc := by
    rw [hvis]
    unfold cvPutText
    rw [pixAt_mapPixels, hrect]
    dsimp only [Option.map]
    rw [if_neg htext]
  refine ⟨hmain, ?_⟩
  intro heq
  rw [heq] at hmain
  rw [hmain] at hbc
  exact hbc rfl

/-- Witness for `visualize_draws_in_place` on the concrete 4×4 image. -/
theorem visualize_draws_in_place_witness :
    pixAt (visualize imgBlackEx [detBoxEx] pxBlack pxGreen) 0 0 = some pxGreen ∧
    visualize imgBlackEx [detBoxEx] pxBlack pxGreen ≠ imgBlackEx :=
  visualize_draws_in_place imgBlackEx detBoxEx pxBlack pxGreen 0 0
    (by decide) (by decide) (by decide) (by decide)

end UW
